import Mathlib

/-!
Verification of the line-index core of the `glance` large-file viewer.

The embedding models the byte-level behaviour of `src/file.rs` and
`src/fileview.rs`:

* a memory-mapped file is a `List Nat` of bytes (each `< 256` in reality;
  the definitions are stated for arbitrary naturals);
* Rust's `&str` values are represented by their underlying UTF-8 byte
  lists, and `simdutf8::basic::from_utf8` / `std::str::from_utf8`
  validation is modelled by `utf8Sizes`, which returns the byte width of
  each encoded scalar value (`none` on invalid input);
* operations that can panic in Rust (`unwrap` on a decode failure,
  out-of-bounds `Vec`/slice indexing, integer underflow) are modelled as
  `Option`-returning functions where `none` is the panic.
-/

namespace Glance

/-- Byte-width classification of a UTF-8 continuation byte (`0x80..0xBF`). -/
def isUtf8Cont (b : Nat) : Bool :=
  0x80 ≤ b && b < 0xC0

/-- Validity of the two continuation bytes of a three-byte UTF-8 sequence,
given the lead byte `b0` (rules out overlong forms and surrogates, as the
strict validation used by `simdutf8::basic::from_utf8` does). -/
def utf8Valid3 (b0 b1 b2 : Nat) : Bool :=
  (if b0 = 0xE0 then 0xA0 ≤ b1 && b1 < 0xC0
   else if b0 = 0xED then 0x80 ≤ b1 && b1 < 0xA0
   else isUtf8Cont b1) && isUtf8Cont b2

/-- Validity of the three continuation bytes of a four-byte UTF-8 sequence,
given the lead byte `b0` (rules out overlong forms and code points above
`U+10FFFF`). -/
def utf8Valid4 (b0 b1 b2 b3 : Nat) : Bool :=
  (if b0 = 0xF0 then 0x90 ≤ b1 && b1 < 0xC0
   else if b0 = 0xF4 then 0x80 ≤ b1 && b1 < 0x90
   else isUtf8Cont b1) && isUtf8Cont b2 && isUtf8Cont b3

/-- Strict UTF-8 validation of a byte list, returning the byte width of each
encoded Unicode scalar value in order, or `none` if the bytes are not valid
UTF-8.  This models the success/failure behaviour and the character
segmentation of `simdutf8::basic::from_utf8` (and of
`std::str::from_utf8`). -/
def utf8Sizes : List Nat → Option (List Nat)
  | [] => some []
  | b0 :: rest =>
    if b0 < 0x80 then (utf8Sizes rest).map (fun l => 1 :: l)
    else if b0 < 0xC2 then none
    else if b0 < 0xE0 then
      match rest with
      | [] => none
      | b1 :: rest2 =>
        if isUtf8Cont b1 then (utf8Sizes rest2).map (fun l => 2 :: l) else none
    else if b0 < 0xF0 then
      match rest with
      | [] => none
      | b1 :: rest2 =>
        match rest2 with
        | [] => none
        | b2 :: rest3 =>
          if utf8Valid3 b0 b1 b2 then (utf8Sizes rest3).map (fun l => 3 :: l) else none
    else if b0 < 0xF5 then
      match rest with
      | [] => none
      | b1 :: rest2 =>
        match rest2 with
        | [] => none
        | b2 :: rest3 =>
          match rest3 with
          | [] => none
          | b3 :: rest4 =>
            if utf8Valid4 b0 b1 b2 b3 then (utf8Sizes rest4).map (fun l => 4 :: l) else none
    else none

/-- The model of `slice::split_inclusive` with the predicate used in
`build_linemap`: `char::from_u32(u32::from(*b))` always succeeds for a byte,
so the predicate holds exactly when the byte is `0x0A`.  Segments keep their
trailing terminator; a final unterminated segment is kept; the empty slice
yields no segments. -/
def splitInclusiveNl : List Nat → List (List Nat)
  | [] => []
  | b :: bs =>
    if b = 10 then [b] :: splitInclusiveNl bs
    else
      match splitInclusiveNl bs with
      | [] => [[b]]
      | l :: ls => (b :: l) :: ls

/-- Running partial sums: `prefixSums t [a, b, c] = [t, t + a, t + a + b]`.
Used to describe the accumulated `total_bytes` offsets of the builder and
the byte offsets produced by `char_indices`. -/
def prefixSums : Nat → List Nat → List Nat
  | _, [] => []
  | acc, n :: l => acc :: prefixSums (acc + n) l

/-- The byte offsets at which the characters of (valid UTF-8) `s` begin:
the positions yielded by Rust's `str::char_indices`. -/
def char_indices (s : List Nat) : List Nat :=
  prefixSums 0 ((utf8Sizes s).getD [])

/-- The shared index built by the background task
(`Metadata` in `src/file.rs`). -/
structure Metadata where
  num_lines : Nat
  max_num_cols : Nat
  line_to_byte_idx : List Nat
  line_to_num_bytes : List Nat
  line_to_num_cols : List Nat
deriving Repr, DecidableEq

/-- The empty index created by `Metadata::new`. -/
def Metadata.new : Metadata :=
  { num_lines := 0, max_num_cols := 0,
    line_to_byte_idx := [], line_to_num_bytes := [], line_to_num_cols := [] }

/-- One iteration of the `for line in lines` loop of `File::build_linemap`:
the whole loop body runs under a single acquisition of the metadata lock.
`from_utf8(line).unwrap()` panics when the segment is not valid UTF-8, which
the model renders as `none`; the number of columns pushed is the number of
decoded characters of the full segment (terminator included). -/
def buildStep (metadata : Metadata) (total_bytes : Nat) (line : List Nat) :
    Option (Metadata × Nat) :=
  let num_bytes := line.length
  match utf8Sizes line with
  | none => none
  | some sizes =>
    let num_cols := sizes.length
    some ({ num_lines := metadata.num_lines + 1,
            max_num_cols := max metadata.max_num_cols num_cols,
            line_to_byte_idx := metadata.line_to_byte_idx ++ [total_bytes],
            line_to_num_bytes := metadata.line_to_num_bytes ++ [num_bytes],
            line_to_num_cols := metadata.line_to_num_cols ++ [num_cols] },
          total_bytes + num_bytes)

/-- The loop of `File::build_linemap` over a list of line segments, threading
the metadata and the `total_bytes` accumulator. -/
def buildLinemapAux : Metadata → Nat → List (List Nat) → Option Metadata
  | metadata, _, [] => some metadata
  | metadata, total_bytes, line :: rest =>
    match buildStep metadata total_bytes line with
    | none => none
    | some (md, tb) => buildLinemapAux md tb rest

/-- `File::build_linemap` run to completion on the mapped bytes, starting
from the empty index; `none` models the panic raised by
`from_utf8(line).unwrap()` on the first line that is not valid UTF-8. -/
def build_linemap (mmap : List Nat) : Option Metadata :=
  buildLinemapAux Metadata.new 0 (splitInclusiveNl mmap)

/-- The observable index state after the builder has committed its first `k`
appends (each append is one lock-protected loop iteration), modelling what a
concurrent reader can see between appends while `build_linemap` is running. -/
def buildUpTo (mmap : List Nat) (k : Nat) : Option Metadata :=
  buildLinemapAux Metadata.new 0 ((splitInclusiveNl mmap).take k)

/-- The loop of `File::cols_to_bytes`, folding over the remaining
`char_indices` positions with the running column counter and the current
`start`/`end` resolutions. -/
def colsToBytesLoop : List Nat → Nat → Nat → Nat → Nat → Nat → Nat × Nat
  | [], _, _, _, start, stop => (start, stop)
  | pos :: rest, col_start, col_end, col, start, stop =>
    colsToBytesLoop rest col_start col_end (col + 1)
      (if col = col_start then pos else start)
      (if col = col_end then pos else stop)

/-- `File::cols_to_bytes`: walks the character boundaries of `s` once and
resolves the two column positions to byte offsets, defaulting to `s.len()`
for positions never reached. -/
def cols_to_bytes (s : List Nat) (col_start col_end : Nat) : Nat × Nat :=
  colsToBytesLoop (char_indices s) col_start col_end 0 s.length s.length

/-- Rust's `str::is_char_boundary`: `0` and the total length are boundaries,
positions past the end are not, and an interior position is a boundary when
the byte there is not a continuation byte. -/
def is_char_boundary (s : List Nat) (i : Nat) : Bool :=
  if i = 0 ∨ i = s.length then true
  else
    match s.drop i with
    | [] => false
    | b :: _ => !(isUtf8Cont b)

/-- The half-open byte slice `&bs[a..b]` (as a value; the bounds checks that
Rust performs are written at each use site). -/
def sliceRange (bs : List Nat) (a b : Nat) : List Nat :=
  (bs.take b).drop a

/-- `File::get_text`.  Rust panics are modelled as `none`: indexing
`line_to_byte_idx[line]` / `line_to_num_bytes[line]` out of bounds, slicing
`mmap` past its end, `from_utf8(..).unwrap()` on invalid bytes, and a `&str`
range slice whose bounds are not ordered character boundaries. -/
def get_text (mmap : List Nat) (metadata : Metadata) (line col_start col_end : Nat) :
    Option (List Nat) :=
  if h1 : line < metadata.line_to_byte_idx.length then
    if h2 : line < metadata.line_to_num_bytes.length then
      let byte_begin := metadata.line_to_byte_idx.get ⟨line, h1⟩
      let byte_end := byte_begin + metadata.line_to_num_bytes.get ⟨line, h2⟩
      if byte_end ≤ mmap.length then
        let chars := sliceRange mmap byte_begin byte_end
        match utf8Sizes chars with
        | none => none
        | some _ =>
          let col_end2 := min col_end chars.length
          let col_start2 := min col_start col_end2
          let se := cols_to_bytes chars col_start2 col_end2
          if se.1 ≤ se.2 ∧ se.2 ≤ chars.length ∧
              is_char_boundary chars se.1 ∧ is_char_boundary chars se.2 then
            some (sliceRange chars se.1 se.2)
          else none
      else none
    else none
  else none

/-- The number of Unicode scalar values of a (valid UTF-8) line segment,
terminator included — the quantity `build_linemap` records per line. -/
def lineCols (l : List Nat) : Nat :=
  ((utf8Sizes l).getD []).length

/-- The resolution of one column position performed by `cols_to_bytes`:
the byte offset of character `c` when `c` is a reachable column, and the
byte length of `s` otherwise. -/
def posOr (s : List Nat) (c : Nat) : Nat :=
  if c < (char_indices s).length then (char_indices s).getD c 0 else s.length

/-- The number of terminator-delimited segments of a byte sequence: one per
`0x0A` byte, plus one for a trailing unterminated segment. -/
def countLines (bs : List Nat) : Nat :=
  bs.count 10 +
    (match bs.getLast? with
     | none => 0
     | some b => if b = 10 then 0 else 1)

/-- The UTF-8 bytes of the three-line demonstration file `"hi\nwörld\n!\n"`
used by the spec's concrete scenario. -/
def demoBytes : List Nat :=
  [104, 105, 10, 119, 195, 182, 114, 108, 100, 10, 33, 10]

/-- The index that `build_linemap` produces on `demoBytes`. -/
def demoMd : Metadata :=
  { num_lines := 3, max_num_cols := 6, line_to_byte_idx := [0, 3, 10],
    line_to_num_bytes := [3, 7, 2], line_to_num_cols := [3, 6, 2] }

/-- The index state after the builder has committed the first line of the
file `"a\nb"`. -/
def abMd1 : Metadata :=
  { num_lines := 1, max_num_cols := 2, line_to_byte_idx := [0],
    line_to_num_bytes := [2], line_to_num_cols := [2] }

/-- The index state after the builder has committed both lines of the file
`"a\nb"`. -/
def abMd2 : Metadata :=
  { num_lines := 2, max_num_cols := 2, line_to_byte_idx := [0, 2],
    line_to_num_bytes := [2, 1], line_to_num_cols := [2, 1] }

/-- The index that `build_linemap` produces on the ASCII file `"ab\nc"`. -/
def abcMd : Metadata :=
  { num_lines := 2, max_num_cols := 3, line_to_byte_idx := [0, 3],
    line_to_num_bytes := [3, 1], line_to_num_cols := [3, 1] }

/-- The `i`-th line segment of a byte sequence (used to state what the
builder and `get_text` operate on). -/
def segAt (bs : List Nat) (i : Nat) : List Nat :=
  (splitInclusiveNl bs).getD i []

/-- The view of `src/fileview.rs` (the earlier, byte-addressed variant of
the viewer): the mapped bytes together with its own per-line index. -/
structure FileView where
  mmap : List Nat
  num_lines : Nat
  max_num_cols : Nat
  line_to_byte_idx : List Nat
  line_to_num_cols : List Nat
deriving Repr, DecidableEq

/-- `FileView::open`: a fresh view with zero counters and empty index. -/
def FileView.opened (bs : List Nat) : FileView :=
  { mmap := bs, num_lines := 0, max_num_cols := 0,
    line_to_byte_idx := [], line_to_num_cols := [] }

/-- The `for line in lines` loop of `FileView::build_linemap`, threading the
local `bytes` accumulator: each segment is counted, its starting byte offset
pushed, and its byte length recorded as its column count (the `TODO`
non-ASCII approximation of `fileview.rs`). -/
def FileView.buildAux : FileView → Nat → List (List Nat) → FileView
  | fv, _, [] => fv
  | fv, bytes, line :: rest =>
    FileView.buildAux
      { fv with
        num_lines := fv.num_lines + 1,
        line_to_byte_idx := fv.line_to_byte_idx ++ [bytes],
        line_to_num_cols := fv.line_to_num_cols ++ [line.length],
        max_num_cols := max fv.max_num_cols line.length }
      (bytes + line.length) rest

/-- `FileView::build_linemap`: scans all segments of the mapped bytes with
the local accumulator `bytes` starting at `0`. -/
def FileView.build_linemap (fv : FileView) : FileView :=
  FileView.buildAux fv 0 (splitInclusiveNl fv.mmap)

/-- `FileView::get_text`: translates columns directly to byte offsets
(correct for single-byte characters only).  Rust panics are modelled as
`none`: out-of-bounds `Vec` indexing, the `u64` underflow in
`min(num_cols, col_end) - col_start`, slicing the map past its end, and
`from_utf8(..).unwrap()` on invalid bytes. -/
def FileView.get_text (fv : FileView) (line col_start col_end : Nat) :
    Option (List Nat) :=
  if h1 : line < fv.line_to_byte_idx.length then
    if h2 : line < fv.line_to_num_cols.length then
      let byte_begin := fv.line_to_byte_idx.get ⟨line, h1⟩ + col_start
      if col_start ≤ min (fv.line_to_num_cols.get ⟨line, h2⟩) col_end then
        let num_cols := min (fv.line_to_num_cols.get ⟨line, h2⟩) col_end - col_start
        let byte_end := byte_begin + num_cols
        if byte_end ≤ fv.mmap.length then
          match utf8Sizes (sliceRange fv.mmap byte_begin byte_end) with
          | none => none
          | some _ => some (sliceRange fv.mmap byte_begin byte_end)
        else none
      else none
    else none
  else none

end Glance
namespace Glance

theorem splitInclusiveNl_cons (b : Nat) (bs : List Nat) :
    splitInclusiveNl (b :: bs) =
      if b = 10 then [b] :: splitInclusiveNl bs
      else
        match splitInclusiveNl bs with
        | [] => [[b]]
        | l :: ls => (b :: l) :: ls := rfl

theorem splitInclusiveNl_ne_nil (b : Nat) (bs : List Nat) :
    splitInclusiveNl (b :: bs) ≠ [] := by
  rw [splitInclusiveNl_cons]
  by_cases hb : b = 10
  · simp [hb]
  · rw [if_neg hb]
    cases hsplit : splitInclusiveNl bs <;> simp

theorem flatten_splitInclusiveNl (bs : List Nat) :
    (splitInclusiveNl bs).flatten = bs := by
  induction bs with
  | nil => rfl
  | cons b bs ih =>
    rw [splitInclusiveNl_cons]
    by_cases hb : b = 10
    · subst hb; simpa [List.flatten_cons] using ih
    · rw [if_neg hb]
      cases hsplit : splitInclusiveNl bs with
      | nil =>
        have hbs : bs = [] := by
          cases bs with
          | nil => rfl
          | cons c cs => exact absurd hsplit (splitInclusiveNl_ne_nil c cs)
        subst hbs; simp
      | cons l ls =>
        rw [hsplit] at ih
        simp only [List.flatten_cons] at ih ⊢
        simp [← List.append_assoc, ih]

theorem countLines_singleton (b : Nat) : countLines [b] = 1 := by
  unfold countLines
  by_cases hb : b = 10 <;> simp [hb, List.count_cons, List.count_nil]

theorem countLines_cons (b c : Nat) (cs : List Nat) :
    countLines (b :: c :: cs) = (if b = 10 then 1 else 0) + countLines (c :: cs) := by
  unfold countLines
  have hlast : (b :: c :: cs).getLast? = (c :: cs).getLast? := List.getLast?_cons_cons
  rw [hlast, List.count_cons]
  by_cases hb : b = 10 <;> simp [hb] <;> omega

theorem length_splitInclusiveNl (bs : List Nat) :
    (splitInclusiveNl bs).length = countLines bs := by
  induction bs with
  | nil => rfl
  | cons b bs ih =>
    cases bs with
    | nil =>
      by_cases hb : b = 10 <;>
        simp [splitInclusiveNl, hb, countLines_singleton]
    | cons c cs =>
      rw [countLines_cons b c cs, splitInclusiveNl_cons]
      by_cases hb : b = 10
      · simp only [if_pos hb, List.length_cons, ih]
        omega
      · simp only [if_neg hb]
        cases hsplit : splitInclusiveNl (c :: cs) with
        | nil => exact absurd hsplit (splitInclusiveNl_ne_nil c cs)
        | cons l ls =>
          rw [hsplit] at ih
          simp only [List.length_cons] at ih ⊢
          omega

theorem length_prefixSums (t : Nat) (ls : List Nat) :
    (prefixSums t ls).length = ls.length := by
  induction ls generalizing t with
  | nil => rfl
  | cons n l ih => simp [prefixSums, ih]

theorem prefixSums_getD (ls : List Nat) (t i : Nat) (h : i < ls.length) :
    (prefixSums t ls).getD i 0 = t + (ls.take i).sum := by
  induction ls generalizing t i with
  | nil => simp at h
  | cons n l ih =>
    cases i with
    | zero => simp [prefixSums]
    | succ j =>
      simp only [prefixSums, List.getD_cons_succ]
      rw [ih (t + n) j (by simpa using Nat.lt_of_succ_lt_succ h)]
      simp [List.take_succ_cons, Nat.add_assoc]

theorem prefixSums_append (t : Nat) (l1 l2 : List Nat) :
    prefixSums t (l1 ++ l2) = prefixSums t l1 ++ prefixSums (t + l1.sum) l2 := by
  induction l1 generalizing t with
  | nil => simp [prefixSums]
  | cons n l ih =>
    simp [prefixSums, ih, Nat.add_assoc]

theorem sum_take_le_sum_take (ls : List Nat) (i j : Nat) (h : i ≤ j) :
    (ls.take i).sum ≤ (ls.take j).sum := by
  induction ls generalizing i j with
  | nil => simp
  | cons n l ih =>
    cases i with
    | zero => simp
    | succ i2 =>
      cases j with
      | zero => omega
      | succ j2 =>
        simp only [List.take_succ_cons, List.sum_cons]
        exact Nat.add_le_add_left (ih i2 j2 (Nat.le_of_succ_le_succ h)) n

theorem sum_take_le (ls : List Nat) (i : Nat) : (ls.take i).sum ≤ ls.sum := by
  conv_rhs => rw [← List.take_append_drop i ls]
  rw [List.sum_append]
  omega

theorem length_le_sum_of_one_le (ls : List Nat) (h : ∀ x ∈ ls, 1 ≤ x) :
    ls.length ≤ ls.sum := by
  induction ls with
  | nil => simp
  | cons n l ih =>
    simp only [List.length_cons, List.sum_cons]
    have h1 : 1 ≤ n := h n (by simp)
    have h2 := ih (fun x hx => h x (by simp [hx]))
    omega

end Glance
namespace Glance

theorem utf8Sizes_cons_eq (b0 : Nat) (rest : List Nat) :
    utf8Sizes (b0 :: rest) =
      (if b0 < 0x80 then (utf8Sizes rest).map (fun l => 1 :: l)
      else if b0 < 0xC2 then none
      else if b0 < 0xE0 then
        match rest with
        | [] => none
        | b1 :: rest2 =>
          if isUtf8Cont b1 then (utf8Sizes rest2).map (fun l => 2 :: l) else none
      else if b0 < 0xF0 then
        match rest with
        | [] => none
        | b1 :: rest2 =>
          match rest2 with
          | [] => none
          | b2 :: rest3 =>
            if utf8Valid3 b0 b1 b2 then (utf8Sizes rest3).map (fun l => 3 :: l) else none
      else if b0 < 0xF5 then
        match rest with
        | [] => none
        | b1 :: rest2 =>
          match rest2 with
          | [] => none
          | b2 :: rest3 =>
            match rest3 with
            | [] => none
            | b3 :: rest4 =>
              if utf8Valid4 b0 b1 b2 b3 then (utf8Sizes rest4).map (fun l => 4 :: l) else none
      else none) := by
  rcases rest with _ | ⟨b1, _ | ⟨b2, _ | ⟨b3, rest4⟩⟩⟩ <;>
    simp only [utf8Sizes]

theorem utf8Sizes_inv (s sizes : List Nat) (h : utf8Sizes s = some sizes) :
    (s = [] ∧ sizes = []) ∨
    ∃ k sz, sizes = k :: sz ∧ 1 ≤ k ∧ k ≤ s.length ∧
      utf8Sizes (s.drop k) = some sz := by
  cases s with
  | nil =>
    left
    refine ⟨rfl, ?_⟩
    have h2 : (some ([] : List Nat) : Option (List Nat)) = some sizes := h
    exact (Option.some.inj h2).symm
  | cons b0 rest =>
    right
    rw [utf8Sizes_cons_eq] at h
    by_cases h1 : b0 < 128
    · rw [if_pos h1] at h
      rcases Option.map_eq_some'.mp h with ⟨sz, hsz, hcons⟩
      exact ⟨1, sz, hcons.symm, Nat.le_refl 1,
        by simp only [List.length_cons]; omega, by simpa using hsz⟩
    · rw [if_neg h1] at h
      by_cases h2 : b0 < 194
      · rw [if_pos h2] at h; exact Option.noConfusion h
      · rw [if_neg h2] at h
        by_cases h3 : b0 < 224
        · rw [if_pos h3] at h
          cases rest with
          | nil => exact Option.noConfusion h
          | cons b1 rest2 =>
            have hm : (if isUtf8Cont b1 then (utf8Sizes rest2).map (fun l => 2 :: l)
                else none) = some sizes := h
            by_cases hc : isUtf8Cont b1
            · rw [if_pos hc] at hm
              rcases Option.map_eq_some'.mp hm with ⟨sz, hsz, hcons⟩
              exact ⟨2, sz, hcons.symm, by omega,
                by simp only [List.length_cons]; omega, by simpa using hsz⟩
            · rw [if_neg hc] at hm; exact Option.noConfusion hm
        · rw [if_neg h3] at h
          by_cases h4 : b0 < 240
          · rw [if_pos h4] at h
            rcases rest with _ | ⟨b1, _ | ⟨b2, rest3⟩⟩
            · exact Option.noConfusion h
            · exact Option.noConfusion h
            · have hm : (if utf8Valid3 b0 b1 b2 then (utf8Sizes rest3).map (fun l => 3 :: l)
                  else none) = some sizes := h
              by_cases hv : utf8Valid3 b0 b1 b2
              · rw [if_pos hv] at hm
                rcases Option.map_eq_some'.mp hm with ⟨sz, hsz, hcons⟩
                exact ⟨3, sz, hcons.symm, by omega,
                  by simp only [List.length_cons]; omega, by simpa using hsz⟩
              · rw [if_neg hv] at hm; exact Option.noConfusion hm
          · rw [if_neg h4] at h
            by_cases h5 : b0 < 245
            · rw [if_pos h5] at h
              rcases rest with _ | ⟨b1, _ | ⟨b2, _ | ⟨b3, rest4⟩⟩⟩
              · exact Option.noConfusion h
              · exact Option.noConfusion h
              · exact Option.noConfusion h
              · have hm : (if utf8Valid4 b0 b1 b2 b3 then (utf8Sizes rest4).map (fun l => 4 :: l)
                    else none) = some sizes := h
                by_cases hv : utf8Valid4 b0 b1 b2 b3
                · rw [if_pos hv] at hm
                  rcases Option.map_eq_some'.mp hm with ⟨sz, hsz, hcons⟩
                  exact ⟨4, sz, hcons.symm, by omega,
                    by simp only [List.length_cons]; omega, by simpa using hsz⟩
                · rw [if_neg hv] at hm; exact Option.noConfusion hm
            · rw [if_neg h5] at h; exact Option.noConfusion h

theorem utf8Sizes_sum_pos :
    ∀ (sizes s : List Nat), utf8Sizes s = some sizes →
      sizes.sum = s.length ∧ ∀ x ∈ sizes, 1 ≤ x := by
  intro sizes
  induction sizes with
  | nil =>
    intro s h
    rcases utf8Sizes_inv s [] h with ⟨rfl, _⟩ | ⟨k, sz, hcons, _⟩
    · simp
    · exact absurd hcons (by simp)
  | cons k sz ih =>
    intro s h
    rcases utf8Sizes_inv s (k :: sz) h with ⟨_, hsz⟩ | ⟨k2, sz2, hcons, hk1, hk2, hrec⟩
    · exact absurd hsz (by simp)
    · obtain ⟨rfl, rfl⟩ : k = k2 ∧ sz = sz2 := by
        injection hcons with a b; exact ⟨a, b⟩
      obtain ⟨ihsum, ihpos⟩ := ih (s.drop k) hrec
      constructor
      · simp only [List.sum_cons, ihsum, List.length_drop]
        omega
      · intro x hx
        rcases List.mem_cons.mp hx with rfl | hx2
        · exact hk1
        · exact ihpos x hx2

theorem utf8Sizes_head_not_cont (b : Nat) (t sz : List Nat)
    (h : utf8Sizes (b :: t) = some sz) : isUtf8Cont b = false := by
  rw [utf8Sizes_cons_eq] at h
  by_cases h1 : b < 128
  · unfold isUtf8Cont
    simp
    omega
  · rw [if_neg h1] at h
    by_cases h2 : b < 194
    · rw [if_pos h2] at h; exact Option.noConfusion h
    · unfold isUtf8Cont
      simp
      omega

theorem is_char_boundary_length (s : List Nat) :
    is_char_boundary s s.length = true := by
  unfold is_char_boundary
  simp

theorem is_char_boundary_zero (s : List Nat) :
    is_char_boundary s 0 = true := by
  unfold is_char_boundary
  simp

theorem boundary_lift (chunk r : List Nat) (i : Nat) (hchunk : 0 < chunk.length)
    (hhead : ∀ b t, r = b :: t → isUtf8Cont b = false)
    (hb : is_char_boundary r i = true) (hi : i ≤ r.length) :
    is_char_boundary (chunk ++ r) (chunk.length + i) = true := by
  have hdropEq : (chunk ++ r).drop (chunk.length + i) = r.drop i :=
    List.drop_append i
  unfold is_char_boundary at hb ⊢
  by_cases hil : i = r.length
  · have hlen : chunk.length + i = (chunk ++ r).length := by
      simp [List.length_append, hil]
    simp [hlen]
  · have hilt : i < r.length := lt_of_le_of_ne hi hil
    have hcond : ¬ (chunk.length + i = 0 ∨ chunk.length + i = (chunk ++ r).length) := by
      simp only [List.length_append]
      omega
    rw [if_neg hcond, hdropEq]
    by_cases hi0 : i = 0
    · subst hi0
      simp only [List.drop_zero]
      cases r with
      | nil => simp at hilt
      | cons b t =>
        have hc := hhead b t rfl
        simp [hc]
    · rw [if_neg (by omega : ¬ (i = 0 ∨ i = r.length))] at hb
      exact hb

theorem utf8Sizes_getD_boundary :
    ∀ (sizes s : List Nat), utf8Sizes s = some sizes →
      ∀ c, c < sizes.length →
        is_char_boundary s ((prefixSums 0 sizes).getD c 0) = true := by
  intro sizes
  induction sizes with
  | nil =>
    intro s h c hc
    simp at hc
  | cons k sz ih =>
    intro s h c hc
    rcases utf8Sizes_inv s (k :: sz) h with ⟨_, hsz⟩ | ⟨k2, sz2, hcons, hk1, hk2, hrec⟩
    · exact absurd hsz (by simp)
    · obtain ⟨rfl, rfl⟩ : k = k2 ∧ sz = sz2 := by
        injection hcons with a b; exact ⟨a, b⟩
      cases c with
      | zero =>
        have h0 : (prefixSums 0 (k :: sz)).getD 0 0 = 0 := by
          simp [prefixSums]
        rw [h0]
        exact is_char_boundary_zero s
      | succ j =>
        have hj : j < sz.length := by
          simpa using Nat.lt_of_succ_lt_succ hc
        have hoff : (prefixSums 0 (k :: sz)).getD (j + 1) 0 =
            k + ((prefixSums 0 sz).getD j 0) := by
          simp only [prefixSums, List.getD_cons_succ]
          rw [prefixSums_getD sz (0 + k) j hj, prefixSums_getD sz 0 j hj]
          omega
        rw [hoff]
        have htlen : (s.take k).length = k := by
          rw [List.length_take]
          omega
        have hi_le : (prefixSums 0 sz).getD j 0 ≤ (s.drop k).length := by
          rw [prefixSums_getD sz 0 j hj]
          have hsum := (utf8Sizes_sum_pos sz (s.drop k) hrec).1
          have hle := sum_take_le sz j
          omega
        have hb := ih (s.drop k) hrec j hj
        have hlift := boundary_lift (s.take k) (s.drop k) ((prefixSums 0 sz).getD j 0)
          (by omega)
          (fun b t hbt => utf8Sizes_head_not_cont b t sz (hbt ▸ hrec))
          hb hi_le
        rw [htlen, List.take_append_drop] at hlift
        exact hlift

end Glance
namespace Glance

theorem buildLinemapAux_some (segs : List (List Nat)) :
    ∀ (md0 : Metadata) (t0 : Nat) (md : Metadata),
      buildLinemapAux md0 t0 segs = some md →
      md.num_lines = md0.num_lines + segs.length ∧
      md.line_to_byte_idx = md0.line_to_byte_idx ++ prefixSums t0 (segs.map List.length) ∧
      md.line_to_num_bytes = md0.line_to_num_bytes ++ segs.map List.length ∧
      md.line_to_num_cols = md0.line_to_num_cols ++ segs.map lineCols ∧
      md.max_num_cols = List.foldl max md0.max_num_cols (segs.map lineCols) ∧
      ∀ l ∈ segs, (utf8Sizes l).isSome := by
  induction segs with
  | nil =>
    intro md0 t0 md h
    have h2 : some md0 = some md := h
    obtain rfl := Option.some.inj h2
    simp [prefixSums]
  | cons line rest ih =>
    intro md0 t0 md h
    have h2 : (match buildStep md0 t0 line with
        | none => none
        | some (md1, tb1) => buildLinemapAux md1 tb1 rest) = some md := h
    unfold buildStep at h2
    cases hsz : utf8Sizes line with
    | none => rw [hsz] at h2; exact Option.noConfusion h2
    | some sizes =>
      rw [hsz] at h2
      have hcols : lineCols line = sizes.length := by
        simp [lineCols, hsz]
      obtain ⟨hnum, hidx, hnb, hnc, hmax, hval⟩ := ih _ _ md h2
      refine ⟨?_, ?_, ?_, ?_, ?_, ?_⟩
      · simp only [hnum, List.length_cons]
        omega
      · simp only [hidx, List.map_cons, prefixSums]
        simp [List.append_assoc]
      · simp only [hnb, List.map_cons]
        simp [List.append_assoc]
      · simp only [hnc, List.map_cons, hcols]
        simp [List.append_assoc]
      · simp only [hmax, List.map_cons, List.foldl_cons, hcols]
      · intro l hl
        rcases List.mem_cons.mp hl with rfl | hl2
        · simp [hsz]
        · exact hval l hl2

theorem buildLinemapAux_isSome (segs : List (List Nat)) :
    ∀ (md0 : Metadata) (t0 : Nat),
      (buildLinemapAux md0 t0 segs).isSome ↔ ∀ l ∈ segs, (utf8Sizes l).isSome := by
  induction segs with
  | nil =>
    intro md0 t0
    simp [buildLinemapAux]
  | cons line rest ih =>
    intro md0 t0
    have hshape : buildLinemapAux md0 t0 (line :: rest) =
        (match buildStep md0 t0 line with
         | none => none
         | some (md1, tb1) => buildLinemapAux md1 tb1 rest) := rfl
    rw [hshape]
    unfold buildStep
    cases hsz : utf8Sizes line with
    | none =>
      simp [hsz]
    | some sizes =>
      simp only [List.forall_mem_cons, hsz, Option.isSome_some, true_and]
      exact ih _ _

theorem build_linemap_eq_buildUpTo (bs : List Nat) :
    build_linemap bs = buildUpTo bs (splitInclusiveNl bs).length := by
  unfold build_linemap buildUpTo
  rw [List.take_length]

theorem buildUpTo_eq (bs : List Nat) (k : Nat) (md : Metadata)
    (h : buildUpTo bs k = some md) :
    md.num_lines = ((splitInclusiveNl bs).take k).length ∧
    md.line_to_byte_idx = prefixSums 0 (((splitInclusiveNl bs).take k).map List.length) ∧
    md.line_to_num_bytes = ((splitInclusiveNl bs).take k).map List.length ∧
    md.line_to_num_cols = ((splitInclusiveNl bs).take k).map lineCols ∧
    md.max_num_cols = List.foldl max 0 (((splitInclusiveNl bs).take k).map lineCols) ∧
    ∀ l ∈ (splitInclusiveNl bs).take k, (utf8Sizes l).isSome := by
  have := buildLinemapAux_some ((splitInclusiveNl bs).take k) Metadata.new 0 md h
  simpa [Metadata.new] using this

theorem build_linemap_eq (bs : List Nat) (md : Metadata)
    (h : build_linemap bs = some md) :
    md.num_lines = (splitInclusiveNl bs).length ∧
    md.line_to_byte_idx = prefixSums 0 ((splitInclusiveNl bs).map List.length) ∧
    md.line_to_num_bytes = (splitInclusiveNl bs).map List.length ∧
    md.line_to_num_cols = (splitInclusiveNl bs).map lineCols ∧
    md.max_num_cols = List.foldl max 0 ((splitInclusiveNl bs).map lineCols) ∧
    ∀ l ∈ splitInclusiveNl bs, (utf8Sizes l).isSome := by
  have := buildLinemapAux_some (splitInclusiveNl bs) Metadata.new 0 md h
  simpa [Metadata.new] using this

theorem resolveStep (pos : Nat) (rest : List Nat) (c col s0 : Nat) :
    (if col + 1 ≤ c ∧ c - (col + 1) < rest.length then rest.getD (c - (col + 1)) 0
     else if col = c then pos else s0) =
    (if col ≤ c ∧ c - col < rest.length + 1 then (pos :: rest).getD (c - col) 0 else s0) := by
  by_cases h0 : col = c
  · subst h0
    rw [if_neg (by omega : ¬(col + 1 ≤ col ∧ col - (col + 1) < rest.length))]
    rw [if_pos rfl]
    rw [if_pos (⟨Nat.le_refl col, by omega⟩ : col ≤ col ∧ col - col < rest.length + 1)]
    rw [(by omega : col - col = 0), List.getD_cons_zero]
  · by_cases hc1 : col ≤ c
    · by_cases hc2 : c - col < rest.length + 1
      · rw [if_pos (⟨by omega, by omega⟩ : col + 1 ≤ c ∧ c - (col + 1) < rest.length)]
        rw [if_pos (⟨hc1, hc2⟩ : col ≤ c ∧ c - col < rest.length + 1)]
        rw [(by omega : c - col = (c - (col + 1)) + 1), List.getD_cons_succ]
      · rw [if_neg (by omega : ¬(col + 1 ≤ c ∧ c - (col + 1) < rest.length))]
        rw [if_neg h0]
        rw [if_neg (by omega : ¬(col ≤ c ∧ c - col < rest.length + 1))]
    · rw [if_neg (by omega : ¬(col + 1 ≤ c ∧ c - (col + 1) < rest.length))]
      rw [if_neg h0]
      rw [if_neg (by omega : ¬(col ≤ c ∧ c - col < rest.length + 1))]

theorem colsToBytesLoop_eq (idx : List Nat) :
    ∀ (cs ce col s0 e0 : Nat),
      colsToBytesLoop idx cs ce col s0 e0 =
        ((if col ≤ cs ∧ cs - col < idx.length then idx.getD (cs - col) 0 else s0),
         (if col ≤ ce ∧ ce - col < idx.length then idx.getD (ce - col) 0 else e0)) := by
  induction idx with
  | nil =>
    intro cs ce col s0 e0
    simp [colsToBytesLoop]
  | cons pos rest ih =>
    intro cs ce col s0 e0
    have hshape : colsToBytesLoop (pos :: rest) cs ce col s0 e0 =
        colsToBytesLoop rest cs ce (col + 1)
          (if col = cs then pos else s0)
          (if col = ce then pos else e0) := rfl
    rw [hshape, ih]
    rw [resolveStep pos rest cs col s0, resolveStep pos rest ce col e0]
    simp [List.length_cons]

theorem cols_to_bytes_eq (s : List Nat) (cs ce : Nat) :
    cols_to_bytes s cs ce = (posOr s cs, posOr s ce) := by
  unfold cols_to_bytes posOr
  rw [colsToBytesLoop_eq]
  congr 1 <;> simp

end Glance
namespace Glance

theorem char_indices_valid (s sizes : List Nat) (h : utf8Sizes s = some sizes) :
    char_indices s = prefixSums 0 sizes := by
  simp [char_indices, h]

theorem length_char_indices (s sizes : List Nat) (h : utf8Sizes s = some sizes) :
    (char_indices s).length = sizes.length := by
  rw [char_indices_valid s sizes h, length_prefixSums]

theorem posOr_le_length (s sizes : List Nat) (h : utf8Sizes s = some sizes) (c : Nat) :
    posOr s c ≤ s.length := by
  unfold posOr
  by_cases hc : c < (char_indices s).length
  · rw [if_pos hc]
    rw [char_indices_valid s sizes h] at hc ⊢
    rw [length_prefixSums] at hc
    rw [prefixSums_getD sizes 0 c hc]
    have h1 := sum_take_le sizes c
    have h2 := (utf8Sizes_sum_pos sizes s h).1
    omega
  · rw [if_neg hc]

theorem posOr_mono (s sizes : List Nat) (h : utf8Sizes s = some sizes)
    (c c2 : Nat) (hc : c ≤ c2) : posOr s c ≤ posOr s c2 := by
  unfold posOr
  by_cases h1 : c < (char_indices s).length
  · by_cases h2 : c2 < (char_indices s).length
    · rw [if_pos h1, if_pos h2]
      rw [char_indices_valid s sizes h] at h1 h2 ⊢
      rw [length_prefixSums] at h1 h2
      rw [prefixSums_getD sizes 0 c h1, prefixSums_getD sizes 0 c2 h2]
      have := sum_take_le_sum_take sizes c c2 hc
      omega
    · rw [if_pos h1, if_neg h2]
      have := posOr_le_length s sizes h c
      unfold posOr at this
      rw [if_pos h1] at this
      exact this
  · rw [if_neg h1, if_neg (by omega : ¬ c2 < (char_indices s).length)]

theorem posOr_boundary (s sizes : List Nat) (h : utf8Sizes s = some sizes) (c : Nat) :
    is_char_boundary s (posOr s c) = true := by
  unfold posOr
  by_cases hc : c < (char_indices s).length
  · rw [if_pos hc]
    rw [char_indices_valid s sizes h] at hc ⊢
    rw [length_prefixSums] at hc
    exact utf8Sizes_getD_boundary sizes s h c hc
  · rw [if_neg hc]
    exact is_char_boundary_length s

theorem posOr_of_count_le (s sizes : List Nat) (h : utf8Sizes s = some sizes)
    (c : Nat) (hc : sizes.length ≤ c) : posOr s c = s.length := by
  unfold posOr
  rw [if_neg]
  rw [length_char_indices s sizes h]
  omega

theorem count_le_length (s sizes : List Nat) (h : utf8Sizes s = some sizes) :
    sizes.length ≤ s.length := by
  obtain ⟨hsum, hpos⟩ := utf8Sizes_sum_pos sizes s h
  have := length_le_sum_of_one_le sizes hpos
  omega

theorem sliceRange_shift (seg other : List Nat) (x y : Nat) :
    sliceRange (seg ++ other) (seg.length + x) (seg.length + y) = sliceRange other x y := by
  unfold sliceRange
  rw [List.take_append y, List.drop_append x]

theorem sliceRange_flatten (segs : List (List Nat)) :
    ∀ i, i < segs.length → ∀ a b, b ≤ (segs.getD i []).length →
      sliceRange segs.flatten
        ((prefixSums 0 (segs.map List.length)).getD i 0 + a)
        ((prefixSums 0 (segs.map List.length)).getD i 0 + b) =
      sliceRange (segs.getD i []) a b := by
  induction segs with
  | nil =>
    intro i hi
    simp at hi
  | cons seg rest ih =>
    intro i hi a b hb
    cases i with
    | zero =>
      have h0 : (prefixSums 0 ((seg :: rest).map List.length)).getD 0 0 = 0 := by
        simp [prefixSums]
      rw [h0]
      rw [List.getD_cons_zero] at hb ⊢
      simp only [Nat.zero_add]
      unfold sliceRange
      rw [List.flatten_cons, List.take_append_of_le_length hb]
    | succ j =>
      have hj : j < rest.length := by
        simpa using Nat.lt_of_succ_lt_succ hi
      have hjm : j < (rest.map List.length).length := by
        simpa using hj
      have hoff : (prefixSums 0 ((seg :: rest).map List.length)).getD (j + 1) 0 =
          seg.length + (prefixSums 0 (rest.map List.length)).getD j 0 := by
        simp only [List.map_cons, prefixSums, List.getD_cons_succ]
        rw [prefixSums_getD (rest.map List.length) (0 + seg.length) j hjm,
          prefixSums_getD (rest.map List.length) 0 j hjm]
        omega
      rw [List.getD_cons_succ] at hb ⊢
      rw [hoff, List.flatten_cons, Nat.add_assoc, Nat.add_assoc, sliceRange_shift]
      exact ih j hj a b hb

theorem utf8Sizes_ascii (s : List Nat) (h : ∀ b ∈ s, b < 128) :
    utf8Sizes s = some (List.replicate s.length 1) := by
  induction s with
  | nil => rfl
  | cons b t ih =>
    rw [utf8Sizes_cons_eq, if_pos (h b (by simp))]
    rw [ih (fun x hx => h x (by simp [hx]))]
    simp [List.replicate_succ]

end Glance
namespace Glance

theorem sum_take_succ_getD (ls : List Nat) (i : Nat) (h : i < ls.length) :
    (ls.take (i + 1)).sum = (ls.take i).sum + ls.getD i 0 := by
  rw [List.take_succ, List.sum_append, List.getElem?_eq_getElem h]
  rw [List.getD_eq_getElem ls 0 h]
  simp

theorem getD_map_length (segs : List (List Nat)) (i : Nat) (h : i < segs.length) :
    (segs.map List.length).getD i 0 = (segs.getD i []).length := by
  rw [List.getD_eq_getElem _ _ (by simpa using h), List.getElem_map,
    List.getD_eq_getElem _ _ h]

theorem getD_map_lineCols (segs : List (List Nat)) (i : Nat) (h : i < segs.length) :
    (segs.map lineCols).getD i 0 = lineCols (segs.getD i []) := by
  rw [List.getD_eq_getElem _ _ (by simpa using h), List.getElem_map,
    List.getD_eq_getElem _ _ h]

theorem segAt_mem (bs : List Nat) (i : Nat) (h : i < (splitInclusiveNl bs).length) :
    segAt bs i ∈ splitInclusiveNl bs := by
  unfold segAt
  rw [List.getD_eq_getElem _ _ h]
  exact List.getElem_mem h

theorem segAt_valid (bs : List Nat) (md : Metadata) (h : build_linemap bs = some md)
    (i : Nat) (hi : i < md.num_lines) : (utf8Sizes (segAt bs i)).isSome := by
  obtain ⟨hnum, _, _, _, _, hval⟩ := build_linemap_eq bs md h
  exact hval _ (segAt_mem bs i (by omega))

theorem byte_idx_getD (bs : List Nat) (md : Metadata) (h : build_linemap bs = some md)
    (i : Nat) (hi : i < md.num_lines) :
    md.line_to_byte_idx.getD i 0 =
      (((splitInclusiveNl bs).map List.length).take i).sum := by
  obtain ⟨hnum, hidx, _, _, _, _⟩ := build_linemap_eq bs md h
  rw [hidx, prefixSums_getD _ 0 i (by simpa using hnum ▸ hi)]
  omega

theorem num_bytes_getD (bs : List Nat) (md : Metadata) (h : build_linemap bs = some md)
    (i : Nat) (hi : i < md.num_lines) :
    md.line_to_num_bytes.getD i 0 = (segAt bs i).length := by
  obtain ⟨hnum, _, hnb, _, _, _⟩ := build_linemap_eq bs md h
  rw [hnb, getD_map_length _ i (by omega)]
  rfl

theorem num_cols_getD (bs : List Nat) (md : Metadata) (h : build_linemap bs = some md)
    (i : Nat) (hi : i < md.num_lines) :
    md.line_to_num_cols.getD i 0 = lineCols (segAt bs i) := by
  obtain ⟨hnum, _, _, hnc, _, _⟩ := build_linemap_eq bs md h
  rw [hnc, getD_map_lineCols _ i (by omega)]
  rfl

theorem slice_segAt (bs : List Nat) (md : Metadata) (h : build_linemap bs = some md)
    (i : Nat) (hi : i < md.num_lines) :
    sliceRange bs (md.line_to_byte_idx.getD i 0)
        (md.line_to_byte_idx.getD i 0 + md.line_to_num_bytes.getD i 0) =
      segAt bs i := by
  obtain ⟨hnum, hidx, hnb, _, _, _⟩ := build_linemap_eq bs md h
  have hlt : i < (splitInclusiveNl bs).length := by omega
  have hnbval : ((splitInclusiveNl bs).map List.length).getD i 0 = (segAt bs i).length :=
    getD_map_length _ i hlt
  have hfl := sliceRange_flatten (splitInclusiveNl bs) i hlt 0 ((segAt bs i).length)
    (Nat.le_refl _)
  rw [flatten_splitInclusiveNl, Nat.add_zero] at hfl
  rw [hidx, hnb, hnbval, hfl]
  unfold sliceRange segAt
  rw [List.take_length, List.drop_zero]

theorem slice_in_bounds (bs : List Nat) (md : Metadata) (h : build_linemap bs = some md)
    (i : Nat) (hi : i < md.num_lines) :
    md.line_to_byte_idx.getD i 0 + md.line_to_num_bytes.getD i 0 ≤ bs.length := by
  obtain ⟨hnum, _, _, _, _, _⟩ := build_linemap_eq bs md h
  have hlt : i < ((splitInclusiveNl bs).map List.length).length := by
    simpa using (by omega : i < (splitInclusiveNl bs).length)
  rw [byte_idx_getD bs md h i hi, num_bytes_getD bs md h i hi]
  have hsegeq : (segAt bs i).length = ((splitInclusiveNl bs).map List.length).getD i 0 :=
    (getD_map_length _ i (by simpa using hlt)).symm
  rw [hsegeq, ← sum_take_succ_getD _ i hlt]
  have h1 := sum_take_le ((splitInclusiveNl bs).map List.length) (i + 1)
  have h2 : ((splitInclusiveNl bs).map List.length).sum = bs.length := by
    rw [← List.length_flatten, flatten_splitInclusiveNl]
  omega

end Glance
namespace Glance

theorem get_text_eq (bs : List Nat) (md : Metadata) (h : build_linemap bs = some md)
    (line cs ce : Nat) (hline : line < md.num_lines) :
    get_text bs md line cs ce =
      some (sliceRange (segAt bs line)
        (posOr (segAt bs line) (min cs (min ce (segAt bs line).length)))
        (posOr (segAt bs line) (min ce (segAt bs line).length))) := by
  obtain ⟨hnum, hidx, hnb, hnc, hmax, hval⟩ := build_linemap_eq bs md h
  have hA : line < md.line_to_byte_idx.length := by
    rw [hidx, length_prefixSums]
    simpa using (by omega : line < (splitInclusiveNl bs).length)
  have hB : line < md.line_to_num_bytes.length := by
    rw [hnb]
    simpa using (by omega : line < (splitInclusiveNl bs).length)
  have hbyteval : md.line_to_byte_idx.get ⟨line, hA⟩ = md.line_to_byte_idx.getD line 0 := by
    rw [List.get_eq_getElem, List.getD_eq_getElem _ _ hA]
  have hnbv : md.line_to_num_bytes.get ⟨line, hB⟩ = md.line_to_num_bytes.getD line 0 := by
    rw [List.get_eq_getElem, List.getD_eq_getElem _ _ hB]
  have hnbseg : md.line_to_num_bytes.getD line 0 = (segAt bs line).length :=
    num_bytes_getD bs md h line hline
  have hslice := slice_segAt bs md h line hline
  have hbound := slice_in_bounds bs md h line hline
  obtain ⟨sizes, hsizes⟩ := Option.isSome_iff_exists.mp (segAt_valid bs md h line hline)
  have hslice2 : sliceRange bs (md.line_to_byte_idx.getD line 0)
      (md.line_to_byte_idx.getD line 0 + (segAt bs line).length) = segAt bs line := by
    rw [← hnbseg]
    exact hslice
  have hbound2 : md.line_to_byte_idx.getD line 0 + (segAt bs line).length ≤ bs.length := by
    rw [← hnbseg]
    exact hbound
  have hcs : min cs (min ce (segAt bs line).length) ≤ min ce (segAt bs line).length :=
    Nat.min_le_right _ _
  conv_lhs => unfold get_text
  rw [dif_pos hA, dif_pos hB]
  simp only []
  rw [hbyteval, hnbv, hnbseg, hslice2, if_pos hbound2]
  split
  · next heq =>
    rw [hsizes] at heq
    exact Option.noConfusion heq
  · next val heq =>
    rw [cols_to_bytes_eq]
    rw [if_pos ?hcond]
    case hcond =>
      refine ⟨?_, ?_, ?_, ?_⟩
      · exact posOr_mono (segAt bs line) sizes hsizes _ _ hcs
      · exact posOr_le_length (segAt bs line) sizes hsizes _
      · exact posOr_boundary (segAt bs line) sizes hsizes _
      · exact posOr_boundary (segAt bs line) sizes hsizes _

end Glance
namespace Glance

theorem sliceRange_self (l : List Nat) (p : Nat) : sliceRange l p p = [] := by
  unfold sliceRange
  apply List.drop_eq_nil_of_le
  rw [List.length_take]
  omega

theorem segAt_ascii (bs : List Nat) (h : ∀ b ∈ bs, b < 128) (i : Nat)
    (hi : i < (splitInclusiveNl bs).length) : ∀ b ∈ segAt bs i, b < 128 := by
  intro b hb
  apply h
  rw [← flatten_splitInclusiveNl bs]
  exact List.mem_flatten.mpr ⟨segAt bs i, segAt_mem bs i hi, hb⟩

theorem sliceRange_ascii (bs : List Nat) (h : ∀ b ∈ bs, b < 128) (a b2 : Nat) :
    ∀ x ∈ sliceRange bs a b2, x < 128 := by
  intro x hx
  exact h x (List.mem_of_mem_take (List.mem_of_mem_drop hx))

theorem sum_replicate_one (n : Nat) : (List.replicate n (1 : Nat)).sum = n := by
  simp

theorem posOr_ascii (s : List Nat) (h : ∀ b ∈ s, b < 128) (c : Nat) :
    posOr s c = min c s.length := by
  have hsz := utf8Sizes_ascii s h
  unfold posOr
  rw [char_indices_valid s _ hsz, length_prefixSums, List.length_replicate]
  by_cases hc : c < s.length
  · rw [if_pos hc, prefixSums_getD _ 0 c (by simpa using hc)]
    rw [List.take_replicate, List.sum_replicate]
    simp only [smul_eq_mul, Nat.mul_one, Nat.zero_add]
  · rw [if_neg hc]
    omega

theorem FileView_buildAux_eq (segs : List (List Nat)) :
    ∀ (fv : FileView) (bytes : Nat),
      (FileView.buildAux fv bytes segs).mmap = fv.mmap ∧
      (FileView.buildAux fv bytes segs).num_lines = fv.num_lines + segs.length ∧
      (FileView.buildAux fv bytes segs).line_to_byte_idx =
        fv.line_to_byte_idx ++ prefixSums bytes (segs.map List.length) ∧
      (FileView.buildAux fv bytes segs).line_to_num_cols =
        fv.line_to_num_cols ++ segs.map List.length := by
  induction segs with
  | nil =>
    intro fv bytes
    simp [FileView.buildAux, prefixSums]
  | cons line rest ih =>
    intro fv bytes
    have hshape : FileView.buildAux fv bytes (line :: rest) =
        FileView.buildAux
          { fv with
            num_lines := fv.num_lines + 1,
            line_to_byte_idx := fv.line_to_byte_idx ++ [bytes],
            line_to_num_cols := fv.line_to_num_cols ++ [line.length],
            max_num_cols := max fv.max_num_cols line.length }
          (bytes + line.length) rest := rfl
    rw [hshape]
    obtain ⟨hm, hn, hi, hc⟩ := ih _ (bytes + line.length)
    refine ⟨hm, ?_, ?_, ?_⟩
    · rw [hn]
      simp only [List.length_cons]
      omega
    · rw [hi]
      simp [List.map_cons, prefixSums, List.append_assoc]
    · rw [hc]
      simp [List.map_cons, List.append_assoc]

theorem FileView_build_eq (bs : List Nat) :
    ((FileView.opened bs).build_linemap).mmap = bs ∧
    ((FileView.opened bs).build_linemap).num_lines = (splitInclusiveNl bs).length ∧
    ((FileView.opened bs).build_linemap).line_to_byte_idx =
      prefixSums 0 ((splitInclusiveNl bs).map List.length) ∧
    ((FileView.opened bs).build_linemap).line_to_num_cols =
      (splitInclusiveNl bs).map List.length := by
  unfold FileView.build_linemap
  have := FileView_buildAux_eq (splitInclusiveNl (FileView.opened bs).mmap)
    (FileView.opened bs) 0
  simpa [FileView.opened] using this

end Glance
namespace Glance

/-- C1: the index build never fails: it is claimed to absorb decode failures
and to keep indexing.  In the code, `from_utf8(line).unwrap()` panics on the
first line that is not valid UTF-8, so the build succeeds exactly when every
line segment decodes. -/
theorem C1_build_succeeds_iff_lines_decode (bs : List Nat) :
    (build_linemap bs).isSome ↔ ∀ l ∈ splitInclusiveNl bs, (utf8Sizes l).isSome :=
  buildLinemapAux_isSome (splitInclusiveNl bs) Metadata.new 0

/-- C1 counterexample: on the one-byte file `[0xFF]` (a single line that is
not valid UTF-8) the index build panics — modelled as `none` — instead of
completing. -/
theorem C1_counterexample : build_linemap [255] = none := by rfl

/-- C1 witness: on the valid file `"hi\n"` the build completes. -/
theorem C1_witness : (build_linemap [104, 105, 10]).isSome :=
  (C1_build_succeeds_iff_lines_decode [104, 105, 10]).mpr (by decide)

/-- C2 counterexample: on the demonstration file `"hi\nwörld\n!\n"` the
recorded column counts are not `[2, 5, 1]` with maximum `5` (the
terminator-excluding counts the claim states). -/
theorem C2_counterexample :
    ¬ ((build_linemap demoBytes).map Metadata.line_to_num_cols = some [2, 5, 1] ∧
       (build_linemap demoBytes).map Metadata.max_num_cols = some 5) := by
  decide

/-- C2 amended: the recorded column count of every line is the number of
Unicode scalar values of the whole line segment, terminator included, and
`max_num_cols` is the maximum of the recorded counts; on the demonstration
file the counts are `[3, 6, 2]` and the maximum is `6`. -/
theorem C2_cols_include_terminator :
    (∀ (bs : List Nat) (md : Metadata), build_linemap bs = some md →
      (∀ i, i < md.num_lines →
        md.line_to_num_cols.getD i 0 = lineCols (segAt bs i)) ∧
      md.max_num_cols = List.foldl max 0 md.line_to_num_cols) ∧
    (build_linemap demoBytes).map Metadata.line_to_num_cols = some [3, 6, 2] ∧
    (build_linemap demoBytes).map Metadata.max_num_cols = some 6 := by
  refine ⟨?_, by decide, by decide⟩
  intro bs md h
  obtain ⟨hnum, _, _, hnc, hmax, _⟩ := build_linemap_eq bs md h
  refine ⟨fun i hi => num_cols_getD bs md h i hi, ?_⟩
  rw [hmax, hnc]

/-- C2 witness: the first line of the demonstration file, `"hi\n"`, is
recorded with the column count of its full segment (3 scalars). -/
theorem C2_witness : demoMd.line_to_num_cols.getD 0 0 = lineCols (segAt demoBytes 0) :=
  (C2_cols_include_terminator.1 demoBytes demoMd (by decide)).1 0 (by decide)

/-- C4 counterexample: on the file `"a\n"` (one indexed line), requesting
line 1 — which is `>= line_count` — makes `get_text` panic on the
out-of-bounds `Vec` index (modelled as `none`) instead of returning a
result. -/
theorem C4_counterexample :
    (build_linemap [97, 10]).bind (fun md => get_text [97, 10] md 1 0 0) = none := by
  decide

/-- C4 amended: for every line below the built index's `line_count`, every
column range — however far out of range — is defused by clamping and
`get_text` returns a result; a line at or beyond `line_count` panics. -/
theorem C4_get_text_total_in_range (bs : List Nat) (md : Metadata)
    (line cs ce : Nat) (h : build_linemap bs = some md)
    (hline : line < md.num_lines) : (get_text bs md line cs ce).isSome := by
  rw [get_text_eq bs md h line cs ce hline]
  rfl

/-- C4 witness: far out-of-range columns on a valid line still succeed. -/
theorem C4_witness : (get_text demoBytes demoMd 0 5 100).isSome :=
  C4_get_text_total_in_range demoBytes demoMd 0 5 100 (by decide) (by decide)

/-- C5: after the build completes, `num_lines` is the number of
terminator-delimited segments: one per `0x0A` byte plus one for a trailing
unterminated segment, and zero for the empty file. -/
theorem C5_line_count (bs : List Nat) (md : Metadata)
    (h : build_linemap bs = some md) : md.num_lines = countLines bs := by
  rw [(build_linemap_eq bs md h).1, length_splitInclusiveNl]

/-- C5 witness: the demonstration file has 3 lines. -/
theorem C5_witness : demoMd.num_lines = countLines demoBytes :=
  C5_line_count demoBytes demoMd (by decide)

/-- C6: at every observable point during the build (after `k` committed
appends, for any `k`) and hence also after it (the full build equals the
build of all segments), consecutive indexed lines are exactly contiguous:
`line_to_byte_idx[i] + line_to_num_bytes[i] = line_to_byte_idx[i+1]`. -/
theorem C6_contiguity :
    (∀ (bs : List Nat) (k : Nat) (md : Metadata), buildUpTo bs k = some md →
      ∀ i, i + 1 < md.num_lines →
        md.line_to_byte_idx.getD i 0 + md.line_to_num_bytes.getD i 0 =
          md.line_to_byte_idx.getD (i + 1) 0) ∧
    (∀ bs : List Nat, build_linemap bs = buildUpTo bs (splitInclusiveNl bs).length) := by
  constructor
  · intro bs k md h i hi
    obtain ⟨hnum, hidx, hnb, _, _, _⟩ := buildUpTo_eq bs k md h
    have hiT : i < (((splitInclusiveNl bs).take k).map List.length).length := by
      simp only [List.length_map]
      omega
    have hi1T : i + 1 < (((splitInclusiveNl bs).take k).map List.length).length := by
      simp only [List.length_map]
      omega
    rw [hidx, hnb]
    rw [prefixSums_getD _ 0 i hiT, prefixSums_getD _ 0 (i + 1) hi1T]
    rw [sum_take_succ_getD _ i hiT]
    omega
  · exact build_linemap_eq_buildUpTo

/-- C6 witness: on `"a\nb"` after both appends, line 0 ends exactly where
line 1 begins. -/
theorem C6_witness :
    abMd2.line_to_byte_idx.getD 0 0 + abMd2.line_to_num_bytes.getD 0 0 =
      abMd2.line_to_byte_idx.getD 1 0 :=
  C6_contiguity.1 [97, 10, 98] 2 abMd2 (by decide) 0 (by decide)

/-- C7: at every observable state between appends the three per-line
sequences have length `num_lines` (an observer never sees `num_lines = N`
with a shorter sequence), and each committed append only extends them:
the state after `k` appends is a prefix of the state after `k + 1`. -/
theorem C7_lengths_and_append_only :
    (∀ (bs : List Nat) (k : Nat) (md : Metadata), buildUpTo bs k = some md →
      md.line_to_byte_idx.length = md.num_lines ∧
      md.line_to_num_bytes.length = md.num_lines ∧
      md.line_to_num_cols.length = md.num_lines) ∧
    (∀ (bs : List Nat) (k : Nat) (md md2 : Metadata),
      buildUpTo bs k = some md → buildUpTo bs (k + 1) = some md2 →
      md.num_lines ≤ md2.num_lines ∧
      md2.line_to_byte_idx.take md.num_lines = md.line_to_byte_idx ∧
      md2.line_to_num_bytes.take md.num_lines = md.line_to_num_bytes ∧
      md2.line_to_num_cols.take md.num_lines = md.line_to_num_cols) := by
  constructor
  · intro bs k md h
    obtain ⟨hnum, hidx, hnb, hnc, _, _⟩ := buildUpTo_eq bs k md h
    refine ⟨?_, ?_, ?_⟩ <;>
      simp [hidx, hnb, hnc, hnum, length_prefixSums]
  · intro bs k md md2 h h2
    obtain ⟨hnum, hidx, hnb, hnc, _, _⟩ := buildUpTo_eq bs k md h
    obtain ⟨hnum2, hidx2, hnb2, hnc2, _, _⟩ := buildUpTo_eq bs (k + 1) md2 h2
    have htake : (splitInclusiveNl bs).take (k + 1) =
        (splitInclusiveNl bs).take k ++ ((splitInclusiveNl bs)[k]?).toList :=
      List.take_succ
    refine ⟨?_, ?_, ?_, ?_⟩
    · rw [hnum, hnum2, htake, List.length_append]
      omega
    · rw [hidx2, htake, List.map_append, prefixSums_append, hidx, hnum]
      have hlen : ((splitInclusiveNl bs).take k).length =
          (prefixSums 0 (((splitInclusiveNl bs).take k).map List.length)).length := by
        rw [length_prefixSums, List.length_map]
      rw [hlen, List.take_left]
    · rw [hnb2, htake, List.map_append, hnb, hnum]
      have hlen : ((splitInclusiveNl bs).take k).length =
          (((splitInclusiveNl bs).take k).map List.length).length := by
        rw [List.length_map]
      rw [hlen, List.take_left]
    · rw [hnc2, htake, List.map_append, hnc, hnum]
      have hlen : ((splitInclusiveNl bs).take k).length =
          (((splitInclusiveNl bs).take k).map lineCols).length := by
        rw [List.length_map]
      rw [hlen, List.take_left]

/-- C7 witness: on `"a\nb"`, the state after one append has all three
sequences of length 1, and the state after two appends extends it. -/
theorem C7_witness :
    (abMd1.line_to_byte_idx.length = abMd1.num_lines ∧
     abMd1.line_to_num_bytes.length = abMd1.num_lines ∧
     abMd1.line_to_num_cols.length = abMd1.num_lines) ∧
    abMd2.line_to_byte_idx.take abMd1.num_lines = abMd1.line_to_byte_idx :=
  ⟨C7_lengths_and_append_only.1 [97, 10, 98] 1 abMd1 (by decide),
   (C7_lengths_and_append_only.2 [97, 10, 98] 1 abMd1 abMd2
     (by decide) (by decide)).2.1⟩

/-- C8: a degenerate column range `[c, c)` on a valid line of a built index
always yields the empty text. -/
theorem C8_empty_range (bs : List Nat) (md : Metadata) (line c : Nat)
    (h : build_linemap bs = some md) (hline : line < md.num_lines) :
    get_text bs md line c c = some [] := by
  rw [get_text_eq bs md h line c c hline]
  have hmin : min c (min c (segAt bs line).length) = min c (segAt bs line).length := by
    omega
  rw [hmin, sliceRange_self]

/-- C8 witness: `get_text(1, 3, 3)` on the demonstration file is empty. -/
theorem C8_witness : get_text demoBytes demoMd 1 3 3 = some [] :=
  C8_empty_range demoBytes demoMd 1 3 (by decide) (by decide)

/-- C9: after a completed build the indexed lines exactly cover the mapped
bytes: line 0 starts at offset 0 (when any line exists) and the byte lengths
sum to the length of the file. -/
theorem C9_coverage (bs : List Nat) (md : Metadata)
    (h : build_linemap bs = some md) :
    (0 < md.num_lines → md.line_to_byte_idx.getD 0 0 = 0) ∧
    md.line_to_num_bytes.sum = bs.length := by
  obtain ⟨hnum, hidx, hnb, _, _, _⟩ := build_linemap_eq bs md h
  constructor
  · intro h0
    rw [byte_idx_getD bs md h 0 h0]
    simp
  · rw [hnb, ← List.length_flatten, flatten_splitInclusiveNl]

/-- C9 witness: on the demonstration file, line 0 starts at byte 0 and the
per-line byte lengths sum to the file length. -/
theorem C9_witness :
    demoMd.line_to_byte_idx.getD 0 0 = 0 ∧
    demoMd.line_to_num_bytes.sum = demoBytes.length :=
  ⟨(C9_coverage demoBytes demoMd (by decide)).1 (by decide),
   (C9_coverage demoBytes demoMd (by decide)).2⟩

end Glance
namespace Glance

/-- C3: on a built index, a `col_end` at or beyond the line's exact
character count (the recorded column count) yields the same text as
`col_end` equal to that count: the clamp makes overshooting idempotent. -/
theorem C3_clamp_idempotent (bs : List Nat) (md : Metadata) (line cs ce : Nat)
    (h : build_linemap bs = some md) (hline : line < md.num_lines)
    (hce : md.line_to_num_cols.getD line 0 ≤ ce) :
    get_text bs md line cs ce =
      get_text bs md line cs (md.line_to_num_cols.getD line 0) := by
  obtain ⟨sizes, hsizes⟩ := Option.isSome_iff_exists.mp (segAt_valid bs md h line hline)
  have hcnt : lineCols (segAt bs line) = sizes.length := by
    simp [lineCols, hsizes]
  have hC : md.line_to_num_cols.getD line 0 = sizes.length := by
    rw [num_cols_getD bs md h line hline, hcnt]
  have hcl : sizes.length ≤ (segAt bs line).length := count_le_length _ sizes hsizes
  rw [hC] at hce ⊢
  rw [get_text_eq bs md h line cs ce hline,
      get_text_eq bs md h line cs sizes.length hline]
  have e2 : min sizes.length (segAt bs line).length = sizes.length := by omega
  rw [e2]
  have eEnd1 : posOr (segAt bs line) (min ce (segAt bs line).length) =
      (segAt bs line).length :=
    posOr_of_count_le _ sizes hsizes _ (by omega)
  have eEnd2 : posOr (segAt bs line) sizes.length = (segAt bs line).length :=
    posOr_of_count_le _ sizes hsizes _ (by omega)
  rw [eEnd1, eEnd2]
  by_cases hcs : cs < sizes.length
  · have e3 : min cs (min ce (segAt bs line).length) = cs := by omega
    have e4 : min cs sizes.length = cs := by omega
    rw [e3, e4]
  · have e3 : posOr (segAt bs line) (min cs (min ce (segAt bs line).length)) =
        (segAt bs line).length := posOr_of_count_le _ sizes hsizes _ (by omega)
    have e4 : posOr (segAt bs line) (min cs sizes.length) = (segAt bs line).length :=
      posOr_of_count_le _ sizes hsizes _ (by omega)
    rw [e3, e4]

/-- C3 witness: scrolling far past line 1 of the demonstration file returns
the same text as requesting exactly its recorded character count. -/
theorem C3_witness :
    get_text demoBytes demoMd 1 0 50 =
      get_text demoBytes demoMd 1 0 (demoMd.line_to_num_cols.getD 1 0) :=
  C3_clamp_idempotent demoBytes demoMd 1 0 50 (by decide) (by decide) (by decide)

/-- C10: on an all-ASCII file, for every line of the built index and every
column range with `col_start <= col_end` and `col_start` not exceeding the
line's recorded column count, the Unicode-aware `File::get_text` and the
byte-offset `FileView::get_text` return the same text. -/
theorem C10_ascii_get_text_equiv (bs : List Nat) (md : Metadata)
    (line cs ce : Nat) (hascii : ∀ b ∈ bs, b < 128)
    (h : build_linemap bs = some md) (hline : line < md.num_lines)
    (hcsce : cs ≤ ce) (hcscols : cs ≤ md.line_to_num_cols.getD line 0) :
    get_text bs md line cs ce =
      FileView.get_text ((FileView.opened bs).build_linemap) line cs ce := by
  obtain ⟨hnum, hidx, hnb, hnc, hmax, hval⟩ := build_linemap_eq bs md h
  obtain ⟨hfm, hfn, hfi, hfc⟩ := FileView_build_eq bs
  have hlt : line < (splitInclusiveNl bs).length := by omega
  have hsegascii := segAt_ascii bs hascii line hlt
  have hsizes := utf8Sizes_ascii (segAt bs line) hsegascii
  have hcnt : lineCols (segAt bs line) = (segAt bs line).length := by
    simp [lineCols, hsizes]
  have hC : md.line_to_num_cols.getD line 0 = (segAt bs line).length := by
    rw [num_cols_getD bs md h line hline, hcnt]
  rw [hC] at hcscols
  rw [get_text_eq bs md h line cs ce hline]
  simp only [posOr_ascii _ hsegascii]
  have hL1 : min (min cs (min ce (segAt bs line).length)) (segAt bs line).length = cs := by
    omega
  have hL2 : min (min ce (segAt bs line).length) (segAt bs line).length =
      min (segAt bs line).length ce := by
    omega
  rw [hL1, hL2]
  have hfA : line < ((FileView.opened bs).build_linemap).line_to_byte_idx.length := by
    rw [hfi, length_prefixSums, List.length_map]
    omega
  have hfB : line < ((FileView.opened bs).build_linemap).line_to_num_cols.length := by
    rw [hfc, List.length_map]
    omega
  have hgi : ((FileView.opened bs).build_linemap).line_to_byte_idx.get ⟨line, hfA⟩ =
      ((FileView.opened bs).build_linemap).line_to_byte_idx.getD line 0 := by
    rw [List.get_eq_getElem, List.getD_eq_getElem _ _ hfA]
  have hgc : ((FileView.opened bs).build_linemap).line_to_num_cols.get ⟨line, hfB⟩ =
      ((FileView.opened bs).build_linemap).line_to_num_cols.getD line 0 := by
    rw [List.get_eq_getElem, List.getD_eq_getElem _ _ hfB]
  have hPi : ((FileView.opened bs).build_linemap).line_to_byte_idx.getD line 0 =
      md.line_to_byte_idx.getD line 0 := by
    rw [hfi, hidx]
  have hLc : ((FileView.opened bs).build_linemap).line_to_num_cols.getD line 0 =
      (segAt bs line).length := by
    rw [hfc]
    exact getD_map_length _ line hlt
  conv_rhs => unfold FileView.get_text
  rw [dif_pos hfA, dif_pos hfB]
  simp only []
  rw [hgi, hgc, hPi, hLc, hfm]
  rw [if_pos (by omega : cs ≤ min (segAt bs line).length ce)]
  have harith : md.line_to_byte_idx.getD line 0 + cs +
      (min (segAt bs line).length ce - cs) =
      md.line_to_byte_idx.getD line 0 + min (segAt bs line).length ce := by
    omega
  rw [harith]
  have hnbseg : md.line_to_num_bytes.getD line 0 = (segAt bs line).length :=
    num_bytes_getD bs md h line hline
  have hbound := slice_in_bounds bs md h line hline
  rw [hnbseg] at hbound
  rw [if_pos (by omega :
    md.line_to_byte_idx.getD line 0 + min (segAt bs line).length ce ≤ bs.length)]
  have hPval : md.line_to_byte_idx.getD line 0 =
      (prefixSums 0 ((splitInclusiveNl bs).map List.length)).getD line 0 := by
    rw [hidx]
  have hsl := sliceRange_flatten (splitInclusiveNl bs) line hlt cs
    (min (segAt bs line).length ce) (Nat.min_le_left _ _)
  rw [flatten_splitInclusiveNl] at hsl
  have hsl2 : sliceRange bs
      ((prefixSums 0 ((splitInclusiveNl bs).map List.length)).getD line 0 + cs)
      ((prefixSums 0 ((splitInclusiveNl bs).map List.length)).getD line 0 +
        min (segAt bs line).length ce) =
      sliceRange (segAt bs line) cs (min (segAt bs line).length ce) := hsl
  rw [hPval, hsl2]
  have hsliceascii : ∀ x ∈ sliceRange (segAt bs line) cs
      (min (segAt bs line).length ce), x < 128 := by
    intro x hx
    exact hsegascii x (List.mem_of_mem_take (List.mem_of_mem_drop hx))
  rw [utf8Sizes_ascii _ hsliceascii]

/-- C10 witness: on the ASCII file `"ab\nc"`, both retrievals agree on
line 0 with the viewport scrolled past the content width. -/
theorem C10_witness :
    get_text [97, 98, 10, 99] abcMd 0 1 10 =
      FileView.get_text ((FileView.opened [97, 98, 10, 99]).build_linemap) 0 1 10 :=
  C10_ascii_get_text_equiv [97, 98, 10, 99] abcMd 0 1 10 (by decide) (by decide)
    (by decide) (by decide) (by decide)

end Glance
